import Mathlib

/-!
Verification of the binary-file-viewer extension against its specification.

The development shallowly embeds the extension-host sources
(`src/unnamed/part_000`, the activation module, and `src/src/editorprovider.ts`)
as executable Lean definitions.  Strings are modelled as `List Char`,
byte buffers as `List Nat` with every entry below 256, and the external
collaborators (VS Code API, parser selection, file system) as explicit
parameters or abstract outcome values.
-/

set_option maxRecDepth 4000

/-! ## Numeric decode primitives (spec section 4.1)

The decode primitive `readInteger` itself belongs to the webview parser
runtime, which is not among the extension-host sources; only the
little-endian two-complement accumulation loop appears verbatim in the
activation module (part_000, lines 38 to 48).  The primitive is therefore
modelled from the spec, and the loop from the source.
-/

/-- Base-256 positional value of a little-endian byte list
(lowest-order byte first). -/
def val256 : List Nat → Nat
  | [] => 0
  | b :: bs => b + 256 * val256 bs

/-- Base-256 positional sum of the complemented bytes (each byte XOR 0xFF,
written as 255 - b), little-endian. -/
def cval256 : List Nat → Nat
  | [] => 0
  | b :: bs => (255 - b) + 256 * cval256 bs

/-- The accumulation loop of the spec: iterate from the lowest-order byte
outward, value += factor * byte; factor *= 256.  The state is the pair
(value, factor). -/
def leAccum (bytes : List Nat) : Nat × Nat :=
  bytes.foldl (fun vf b => (vf.1 + vf.2 * b, vf.2 * 256)) (0, 1)

/-- The signed-magnitude accumulation loop of the spec: every byte is
complemented (255 - b) before summation; the final +1 is added by
`readInteger`. -/
def leComplAccum (bytes : List Nat) : Nat × Nat :=
  bytes.foldl (fun vf b => (vf.1 + vf.2 * (255 - b), vf.2 * 256)) (0, 1)

/-- Modelled from the spec: `readInteger(buffer, byteOffset, byteWidth,
signed, littleEndian) -> PreciseInteger` (spec section 4.1); the primitive
lives in the webview parser runtime, which is missing from the
extension-host sources.  It accumulates byte-by-byte with a base-256
positional sum (little-endian from the lowest-order byte with an
increasing power-of-256 factor; big-endian in the reverse byte order);
if `signed` and the sign bit of the most significant included byte is
set, the magnitude is the sum of the complemented bytes plus 1 and the
result is reported negative. -/
def readInteger (buffer : List Nat) (byteOffset byteWidth : Nat)
    (signed littleEndian : Bool) : Int :=
  let raw := (buffer.drop byteOffset).take byteWidth
  let bytesLE := if littleEndian then raw else raw.reverse
  let msByte := bytesLE.getLast?.getD 0
  if signed = true ∧ 128 ≤ msByte then
    - (((leComplAccum bytesLE).1 + 1 : Nat) : Int)
  else
    (((leAccum bytesLE).1 : Nat) : Int)

/-- The two-complement magnitude loop from the activation module
(part_000, lines 41 to 47): factor = 1; value = 0; for i below lastSize:
value += factor * (255 - dataBuffer[lastOffset + i]); factor *= 256;
finally value++. -/
def twosComplementValue (dataBuffer : List Nat) (lastOffset lastSize : Nat) : Nat :=
  let vf := (List.range lastSize).foldl
    (fun (vf : Nat × Nat) i =>
      (vf.1 + vf.2 * (255 - dataBuffer.getD (lastOffset + i) 0), vf.2 * 256))
    (0, 1)
  vf.1 + 1

/-- Base-256 unsigned value of the same byte window, accumulated with the
same loop shape (value += factor * byte; factor *= 256). -/
def unsignedValue (dataBuffer : List Nat) (lastOffset lastSize : Nat) : Nat :=
  ((List.range lastSize).foldl
    (fun (vf : Nat × Nat) i =>
      (vf.1 + vf.2 * dataBuffer.getD (lastOffset + i) 0, vf.2 * 256))
    (0, 1)).1

/-- Reference encoder, little-endian: the w base-256 digits of v,
lowest-order first. -/
def encodeLE : Nat → Nat → List Nat
  | _, 0 => []
  | v, w + 1 => (v % 256) :: encodeLE (v / 256) w

/-- Reference encoder for both endiannesses. -/
def encodeBytes (v w : Nat) (littleEndian : Bool) : List Nat :=
  if littleEndian then encodeLE v w else (encodeLE v w).reverse

/-- Reference encoder for signed values: the two-complement residue of v
modulo 2^(8w), encoded as an unsigned value. -/
def encodeSigned (v : Int) (w : Nat) (littleEndian : Bool) : List Nat :=
  encodeBytes (v % ((2 : Int) ^ (8 * w))).toNat w littleEndian

/-! ### Lemmas about the accumulation loops -/

theorem leAccum_go (bytes : List Nat) : ∀ v f : Nat,
    bytes.foldl (fun vf b => (vf.1 + vf.2 * b, vf.2 * 256)) (v, f)
      = (v + f * val256 bytes, f * 256 ^ bytes.length) := by
  induction bytes with
  | nil => intro v f; simp [val256]
  | cons b bs ih =>
    intro v f
    simp only [List.foldl_cons, ih, val256, List.length_cons]
    rw [Prod.mk.injEq]
    exact ⟨by ring, by ring⟩

theorem leComplAccum_go (bytes : List Nat) : ∀ v f : Nat,
    bytes.foldl (fun vf b => (vf.1 + vf.2 * (255 - b), vf.2 * 256)) (v, f)
      = (v + f * cval256 bytes, f * 256 ^ bytes.length) := by
  induction bytes with
  | nil => intro v f; simp [cval256]
  | cons b bs ih =>
    intro v f
    simp only [List.foldl_cons, ih, cval256, List.length_cons]
    rw [Prod.mk.injEq]
    exact ⟨by ring, by ring⟩

theorem val256_lt (bytes : List Nat) (h : ∀ b ∈ bytes, b < 256) :
    val256 bytes < 256 ^ bytes.length := by
  induction bytes with
  | nil => simp [val256]
  | cons b bs ih =>
    have hb : b < 256 := h b (List.mem_cons_self ..)
    have hbs := ih (fun x hx => h x (List.mem_cons_of_mem _ hx))
    simp only [val256, List.length_cons, pow_succ]
    calc b + 256 * val256 bs ≤ 255 + 256 * val256 bs := by omega
    _ < 256 * (val256 bs + 1) := by omega
    _ ≤ 256 * 256 ^ bs.length := by
        have : val256 bs + 1 ≤ 256 ^ bs.length := hbs
        exact Nat.mul_le_mul_left _ this
    _ = 256 ^ bs.length * 256 := by ring

theorem cval256_identity (bytes : List Nat) (h : ∀ b ∈ bytes, b < 256) :
    (cval256 bytes : Int) + 1 + val256 bytes = 256 ^ bytes.length := by
  induction bytes with
  | nil => simp [cval256, val256]
  | cons b bs ih =>
    have hb : b < 256 := h b (List.mem_cons_self ..)
    have hbs := ih (fun x hx => h x (List.mem_cons_of_mem _ hx))
    simp only [cval256, val256, List.length_cons, pow_succ]
    push_cast [Nat.cast_sub (by omega : b ≤ 255)]
    push_cast at hbs
    nlinarith [hbs]

theorem encodeLE_length (v w : Nat) : (encodeLE v w).length = w := by
  induction w generalizing v with
  | zero => simp [encodeLE]
  | succ w ih => simp [encodeLE, ih]

theorem encodeLE_lt (v w : Nat) : ∀ b ∈ encodeLE v w, b < 256 := by
  induction w generalizing v with
  | zero => simp [encodeLE]
  | succ w ih =>
    intro b hb
    simp only [encodeLE, List.mem_cons] at hb
    rcases hb with h | h
    · omega
    · exact ih _ _ h

theorem val256_encodeLE (v w : Nat) : val256 (encodeLE v w) = v % 256 ^ w := by
  induction w generalizing v with
  | zero => simp [encodeLE, val256, Nat.mod_one]
  | succ w ih =>
    simp only [encodeLE, val256, ih]
    rw [pow_succ, mul_comm (256 ^ w) 256, Nat.mod_mul]

theorem encodeLE_getLast : ∀ (w v : Nat),
    (encodeLE v (w + 1)).getLast? = some (v / 256 ^ w % 256) := by
  intro w
  induction w with
  | zero => intro v; simp [encodeLE]
  | succ w ih =>
    intro v
    have h1 : encodeLE v (w + 2) = (v % 256) :: encodeLE (v / 256) (w + 1) := rfl
    have h2 : encodeLE (v / 256) (w + 1)
        = (v / 256 % 256) :: encodeLE (v / 256 / 256) w := rfl
    rw [h1, h2, List.getLast?_cons_cons, ← h2, ih]
    congr 1
    rw [Nat.div_div_eq_div_mul]
    congr 1
    rw [pow_succ]
    ring_nf

theorem readInteger_eval (buffer : List Nat) (w : Nat) (s le : Bool)
    (hw : buffer.length = w) :
    readInteger buffer 0 w s le =
      if s = true ∧ 128 ≤ ((if le = true then buffer else buffer.reverse).getLast?.getD 0)
      then -(((cval256 (if le = true then buffer else buffer.reverse) + 1 : Nat)) : Int)
      else (((val256 (if le = true then buffer else buffer.reverse) : Nat)) : Int) := by
  have htake : (buffer.drop 0).take w = buffer := by
    rw [List.drop_zero]
    exact List.take_of_length_le (by omega)
  simp only [readInteger, htake, leAccum, leComplAccum, leAccum_go, leComplAccum_go]
  simp

theorem readInteger_unsigned_roundtrip (w : Nat) (le : Bool) (v : Nat)
    (hv : v < 2 ^ (8 * w)) :
    readInteger (encodeBytes v w le) 0 w false le = (v : Int) := by
  have hlen : (encodeBytes v w le).length = w := by
    cases le <;> simp [encodeBytes, encodeLE_length]
  have hb : (if le = true then encodeBytes v w le else (encodeBytes v w le).reverse)
      = encodeLE v w := by
    cases le <;> simp [encodeBytes]
  rw [readInteger_eval _ _ _ _ hlen, hb, if_neg (by simp), val256_encodeLE]
  congr 1
  apply Nat.mod_eq_of_lt
  calc v < 2 ^ (8 * w) := hv
  _ = 256 ^ w := by rw [pow_mul]; norm_num

theorem readInteger_signed_roundtrip (w : Nat) (le : Bool) (v : Int)
    (hw : 1 ≤ w) (hlo : -(2 ^ (8 * w - 1)) ≤ v) (hhi : v < 2 ^ (8 * w - 1)) :
    readInteger (encodeSigned v w le) 0 w true le = v := by
  obtain ⟨n, rfl⟩ : ∃ n, w = n + 1 := ⟨w - 1, by omega⟩
  have e1 : 8 * (n + 1) - 1 = 8 * n + 7 := by omega
  rw [e1] at hlo hhi
  -- cast bridges between Nat powers and Int powers
  have hcastH : (((2 : Nat) ^ (8 * n + 7) : Nat) : Int) = (2 : Int) ^ (8 * n + 7) := by
    push_cast
    rfl
  have hcastM : (((2 : Nat) ^ (8 * (n + 1)) : Nat) : Int) = (2 : Int) ^ (8 * (n + 1)) := by
    push_cast
    rfl
  rw [← hcastH] at hlo hhi
  have hsplitN : (2 : Nat) ^ (8 * (n + 1)) = 2 * 2 ^ (8 * n + 7) := by
    rw [show 8 * (n + 1) = (8 * n + 7) + 1 from by omega, pow_succ]
    ring
  -- the unsigned residue
  set u : Nat := (v % ((2 : Int) ^ (8 * (n + 1)))).toNat with hu
  have hMpos : (0 : Int) < (2 : Int) ^ (8 * (n + 1)) := by positivity
  have hmod_nonneg : 0 ≤ v % ((2 : Int) ^ (8 * (n + 1))) := Int.emod_nonneg v (by omega)
  have hmod_lt : v % ((2 : Int) ^ (8 * (n + 1))) < (2 : Int) ^ (8 * (n + 1)) :=
    Int.emod_lt_of_pos v hMpos
  have huI : (u : Int) = v % ((2 : Int) ^ (8 * (n + 1))) := Int.toNat_of_nonneg hmod_nonneg
  have huM : u < 2 ^ (8 * (n + 1)) := by
    have h := hmod_lt
    rw [← huI, ← hcastM] at h
    exact_mod_cast h
  have hv2 : (u : Int) = v ∨ (u : Int) = v + (((2 : Nat) ^ (8 * (n + 1)) : Nat) : Int) := by
    by_cases hv : 0 ≤ v
    · left
      rw [huI, Int.emod_eq_of_lt hv]
      rw [hcastH] at hhi
      calc v < (2 : Int) ^ (8 * n + 7) := hhi
      _ ≤ (2 : Int) ^ (8 * (n + 1)) := by
          apply pow_le_pow_right₀ (by omega)
          omega
    · right
      rw [huI]
      have h0 : (v + (2 : Int) ^ (8 * (n + 1)) * 1) % ((2 : Int) ^ (8 * (n + 1)))
          = v % ((2 : Int) ^ (8 * (n + 1))) := Int.add_mul_emod_self_left v _ 1
      rw [mul_one] at h0
      rw [← h0, Int.emod_eq_of_lt, hcastM]
      · rw [← hcastM, ← hcastH] at *
        omega
      · rw [← hcastM, ← hcastH] at *
        omega
  -- evaluate readInteger
  -- evaluate readInteger on the encoded buffer
  have hlenc : (encodeSigned v (n + 1) le).length = n + 1 := by
    cases le <;> simp [encodeSigned, encodeBytes, encodeLE_length]
  have hbLE : (if le = true then encodeSigned v (n + 1) le
      else (encodeSigned v (n + 1) le).reverse) = encodeLE u (n + 1) := by
    cases le <;> simp [encodeSigned, encodeBytes, hu]
  rw [readInteger_eval _ _ _ _ hlenc, hbLE]
  have hlast : (encodeLE u (n + 1)).getLast?.getD 0 = u / 256 ^ n % 256 := by
    rw [encodeLE_getLast]
    rfl
  have hKn : (256 : Nat) ^ (n + 1) = 2 ^ (8 * (n + 1)) := by
    rw [pow_mul]
    norm_num
  have hdlt : u / 256 ^ n < 256 := by
    apply Nat.div_lt_of_lt_mul
    calc u < 2 ^ (8 * (n + 1)) := huM
    _ = 256 ^ (n + 1) := hKn.symm
    _ = 256 ^ n * 256 := by rw [pow_succ]
  have hd : u / 256 ^ n % 256 = u / 256 ^ n := Nat.mod_eq_of_lt hdlt
  have hhalf : (128 : Nat) * 256 ^ n = 2 ^ (8 * n + 7) := by
    rw [show (256 : Nat) = 2 ^ 8 from rfl, ← pow_mul,
      show (128 : Nat) = 2 ^ 7 from rfl, ← pow_add]
    congr 1
    omega
  have hcond : (128 ≤ u / 256 ^ n) ↔ 2 ^ (8 * n + 7) ≤ u := by
    rw [Nat.le_div_iff_mul_le (by positivity), hhalf]
  have hvalu : val256 (encodeLE u (n + 1)) = u := by
    rw [val256_encodeLE]
    exact Nat.mod_eq_of_lt (by rw [hKn]; exact huM)
  have hcval : (cval256 (encodeLE u (n + 1)) : Int) + 1
      = (((2 : Nat) ^ (8 * (n + 1)) : Nat) : Int) - u := by
    have hid := cval256_identity (encodeLE u (n + 1)) (encodeLE_lt u (n + 1))
    have hKI : (256 : Int) ^ (n + 1) = (((2 : Nat) ^ (8 * (n + 1)) : Nat) : Int) := by
      rw [hcastM, pow_mul]
      norm_num
    rw [encodeLE_length, hvalu, hKI] at hid
    linarith
  rw [hlast, hd]
  by_cases hmsb : 2 ^ (8 * n + 7) ≤ u
  · rw [if_pos ⟨rfl, hcond.mpr hmsb⟩]
    have hg : (((cval256 (encodeLE u (n + 1)) + 1 : Nat)) : Int)
        = (((2 : Nat) ^ (8 * (n + 1)) : Nat) : Int) - u := by
      push_cast
      push_cast at hcval
      linarith
    rw [hg]
    omega
  · rw [if_neg (by rw [hcond]; tauto)]
    rw [hvalu]
    omega

/-- Closed form of the loop sums: the positional sum of g over range n. -/
def rsum (g : Nat → Nat) : Nat → Nat
  | 0 => 0
  | n + 1 => rsum g n + 256 ^ n * g n

theorem rangeAccum_go (g : Nat → Nat) : ∀ (n v f : Nat),
    (List.range n).foldl (fun (vf : Nat × Nat) i => (vf.1 + vf.2 * g i, vf.2 * 256)) (v, f)
      = (v + f * rsum g n, f * 256 ^ n) := by
  intro n
  induction n with
  | zero => intro v f; simp [rsum]
  | succ n ih =>
    intro v f
    rw [List.range_succ, List.foldl_append, ih]
    simp only [List.foldl_cons, List.foldl_nil, rsum]
    rw [Prod.mk.injEq]
    constructor
    · ring
    · rw [pow_succ]
      ring

theorem twosComplementValue_eq (dataBuffer : List Nat) (lastOffset n : Nat) :
    twosComplementValue dataBuffer lastOffset n
      = rsum (fun i => 255 - dataBuffer.getD (lastOffset + i) 0) n + 1 := by
  simp [twosComplementValue, rangeAccum_go]

theorem unsignedValue_eq (dataBuffer : List Nat) (lastOffset n : Nat) :
    unsignedValue dataBuffer lastOffset n
      = rsum (fun i => dataBuffer.getD (lastOffset + i) 0) n := by
  simp [unsignedValue, rangeAccum_go]

theorem rsum_compl (g : Nat → Nat) (n : Nat) (hg : ∀ i, i < n → g i < 256) :
    (rsum (fun i => 255 - g i) n : Int) + 1 + rsum g n = 256 ^ n := by
  induction n with
  | zero => simp [rsum]
  | succ n ih =>
    have hgn : g n < 256 := hg n (by omega)
    have ihn := ih (fun i hi => hg i (by omega))
    simp only [rsum, pow_succ]
    push_cast [Nat.cast_sub (by omega : g n ≤ 255)]
    push_cast at ihn
    nlinarith [ihn]

/-- C3: for every byte buffer, offset and width n with 1 <= n <= 8, the
signed-decode accumulation that complements each byte and adds one (the
loop of part_000, lines 41 to 47) equals 2^(8n) minus the unsigned
base-256 value of the same bytes: it is the exact magnitude of the
two-complement negative. -/
theorem c3_twosComplement_is_exact_magnitude (dataBuffer : List Nat)
    (lastOffset n : Nat) (_h1 : 1 ≤ n) (_h8 : n ≤ 8)
    (_hlen : lastOffset + n ≤ dataBuffer.length)
    (hb : ∀ i, i < n → dataBuffer.getD (lastOffset + i) 0 < 256) :
    (twosComplementValue dataBuffer lastOffset n : Int)
      = 2 ^ (8 * n) - unsignedValue dataBuffer lastOffset n := by
  rw [twosComplementValue_eq, unsignedValue_eq]
  have hid := rsum_compl (fun i => dataBuffer.getD (lastOffset + i) 0) n hb
  have hK : (256 : Int) ^ n = 2 ^ (8 * n) := by
    rw [pow_mul]
    norm_num
  rw [hK] at hid
  push_cast
  linarith

theorem c3_twosComplement_witness :
    (twosComplementValue [253, 254, 255, 255, 255, 255, 255, 255] 0 8 : Int)
      = 2 ^ (8 * 8) - unsignedValue [253, 254, 255, 255, 255, 255, 255, 255] 0 8 :=
  c3_twosComplement_is_exact_magnitude [253, 254, 255, 255, 255, 255, 255, 255] 0 8
    (by decide) (by decide) (by decide) (by decide)

/-- C1, counterexample to the claimed example values: the 8-byte
little-endian buffer FD FE FF FF FF FF FF FF decodes unsigned to
18446744073709551357 (not 18446744073709551613) and signed to -259
(not -3); the second byte is 0xFE, so the unsigned value is
2^64 - 259 = 0xFFFFFFFFFFFFFEFD. -/
theorem c1_example_values_counterexample :
    readInteger [0xFD, 0xFE, 0xFF, 0xFF, 0xFF, 0xFF, 0xFF, 0xFF] 0 8 false true
        ≠ 18446744073709551613 ∧
    readInteger [0xFD, 0xFE, 0xFF, 0xFF, 0xFF, 0xFF, 0xFF, 0xFF] 0 8 true true ≠ -3 := by
  exact ⟨by decide, by decide⟩

/-- C1 (amended): for every byte width 1 to 8 and both endiannesses,
readInteger decodes exactly the value the reference encoder wrote, with
no rounding even beyond 2^53 - 1; the 8-byte little-endian buffer
FD FE FF FF FF FF FF FF decodes unsigned to exactly 18446744073709551357
and signed (two-complement) to exactly -259. -/
theorem c1_readInteger_roundtrip_exact :
    (∀ w : Nat, 1 ≤ w → w ≤ 8 → ∀ le : Bool,
      (∀ v : Nat, v < 2 ^ (8 * w) →
        readInteger (encodeBytes v w le) 0 w false le = (v : Int)) ∧
      (∀ v : Int, -(2 ^ (8 * w - 1)) ≤ v → v < 2 ^ (8 * w - 1) →
        readInteger (encodeSigned v w le) 0 w true le = v)) ∧
    readInteger [0xFD, 0xFE, 0xFF, 0xFF, 0xFF, 0xFF, 0xFF, 0xFF] 0 8 false true
      = 18446744073709551357 ∧
    readInteger [0xFD, 0xFE, 0xFF, 0xFF, 0xFF, 0xFF, 0xFF, 0xFF] 0 8 true true = -259 := by
  refine ⟨fun w h1 h8 le =>
    ⟨fun v hv => readInteger_unsigned_roundtrip w le v hv,
     fun v hlo hhi => readInteger_signed_roundtrip w le v h1 hlo hhi⟩,
    by decide, by decide⟩

theorem c1_roundtrip_witness :
    readInteger (encodeBytes 18446744073709551613 8 true) 0 8 false true
      = (18446744073709551613 : Int) ∧
    readInteger (encodeSigned (-3) 8 true) 0 8 true true = (-3 : Int) :=
  ⟨(c1_readInteger_roundtrip_exact.1 8 (by norm_num) (by norm_num) true).1
      18446744073709551613 (by norm_num),
    (c1_readInteger_roundtrip_exact.1 8 (by norm_num) (by norm_num) true).2
      (-3) (by norm_num) (by norm_num)⟩

/-! ## Diagnostics translator
(src/src/editorprovider.ts, resolveCustomEditor, customParserError case,
lines 69 to 79) -/

/-- JavaScript String.split with separator given as one character:
split never yields the empty list, and a trailing separator yields a
trailing empty piece. -/
def splitLines : List Char → List (List Char)
  | [] => [[]]
  | c :: rest =>
    if c = '\n' then [] :: splitLines rest
    else
      match splitLines rest with
      | [] => [[c]]
      | l :: ls => (c :: l) :: ls

/-- The capture group of the regular expression .*>:(\d+) applied to one
line: the greedy dot-star places the match at the last position where a
greater-than sign is followed by a colon and at least one digit; the
capture is the maximal digit run after that colon.  Returns none when the
pattern has no match in the line. -/
def lastGtColonDigits : List Char → Option (List Char)
  | [] => none
  | c :: rest =>
    match lastGtColonDigits rest with
    | some ds => some ds
    | none =>
      match rest with
      | [] => none
      | r :: tl =>
        if c = '>' ∧ r = ':' ∧ tl.takeWhile Char.isDigit ≠ [] then
          some (tl.takeWhile Char.isDigit)
        else none

/-- JavaScript parseInt on a nonempty run of decimal digits. -/
def digitsToNat (ds : List Char) : Nat :=
  ds.foldl (fun acc c => acc * 10 + (c.toNat - 48)) 0

/-- The payload of ParserSelect.addDiagnosticsMessage(message, filePath, line). -/
structure ParserDiagnostic where
  message : List Char
  filePath : List Char
  line : Int
  deriving DecidableEq

/-- The customParserError branch of resolveCustomEditor
(editorprovider.ts, lines 70 to 79): stacks = message.text.split('\n');
match = .*>:(\d+) applied to stacks[1]; line = 0; if match then
line = parseInt(match[1]) - 4; finally
ParserSelect.addDiagnosticsMessage(stacks[0], parser.filePath, line).
In JavaScript a missing stacks[1] is undefined and the regular expression
receives the string "undefined", which has no match. -/
def customParserError (text parserFilePath : List Char) : ParserDiagnostic :=
  let stackLines := splitLines text
  let secondLine := stackLines.getD 1 ("undefined".toList)
  let line : Int :=
    match lastGtColonDigits secondLine with
    | none => 0
    | some ds => (digitsToNat ds : Int) - 4
  { message := stackLines.getD 0 [], filePath := parserFilePath, line := line }

/-- Does a line contain a colon immediately followed by a decimal digit
(the pattern of the claim, with no constraint before the colon)? -/
def hasColonDigit : List Char → Bool
  | c :: d :: rest => (c = ':' && d.isDigit) || hasColonDigit (d :: rest)
  | _ => false

theorem splitLines_ne_nil (t : List Char) : splitLines t ≠ [] := by
  cases t with
  | nil => simp [splitLines]
  | cons c rest =>
    by_cases hc : c = '\n'
    · simp [splitLines, hc]
    · simp only [splitLines, if_neg hc]
      cases splitLines rest <;> simp

theorem splitLines_head (t : List Char) :
    (splitLines t).getD 0 [] = t.takeWhile (fun c => c != '\n') := by
  induction t with
  | nil => simp [splitLines]
  | cons c rest ih =>
    by_cases hc : c = '\n'
    · simp [splitLines, hc, List.takeWhile_cons]
    · obtain ⟨l, ls, hsplit⟩ : ∃ l ls, splitLines rest = l :: ls := by
        cases h : splitLines rest with
        | nil => exact absurd h (splitLines_ne_nil rest)
        | cons a as => exact ⟨a, as, rfl⟩
      rw [hsplit] at ih
      simp only [splitLines, if_neg hc, hsplit, List.takeWhile_cons]
      simp only [List.getD_cons_zero] at ih ⊢
      rw [show (c != '\n') = true from by simp [hc], if_pos rfl]
      rw [ih]

theorem lastGtColonDigits_cons (c : Char) (rest : List Char) :
    lastGtColonDigits (c :: rest) =
      match lastGtColonDigits rest with
      | some ds => some ds
      | none =>
        match rest with
        | [] => none
        | r :: tl =>
          if c = '>' ∧ r = ':' ∧ tl.takeWhile Char.isDigit ≠ [] then
            some (tl.takeWhile Char.isDigit)
          else none := rfl

theorem lastGtColonDigits_eq_none (l : List Char) (h : hasColonDigit l = false) :
    lastGtColonDigits l = none := by
  induction l with
  | nil => rfl
  | cons c rest ih =>
    have hrest : hasColonDigit rest = false := by
      cases rest with
      | nil => rfl
      | cons d tl =>
        rw [hasColonDigit] at h
        exact (Bool.or_eq_false_iff.mp h).2
    rw [lastGtColonDigits_cons, ih hrest]
    cases rest with
    | nil => rfl
    | cons r tl =>
      show (if c = '>' ∧ r = ':' ∧ tl.takeWhile Char.isDigit ≠ [] then
          some (tl.takeWhile Char.isDigit) else none) = none
      rw [if_neg]
      rintro ⟨hgt, hcolon, hdig⟩
      cases tl with
      | nil => simp [List.takeWhile] at hdig
      | cons d tl2 =>
        by_cases hd : d.isDigit
        · subst hcolon
          rw [hasColonDigit] at hrest
          simp [hd] at hrest
        · simp [List.takeWhile_cons, hd] at hdig

/-- C2: on a customParserError failure, the translator uses the first
line of the failure text as the diagnostic message, and for every failure
text whose second line contains no colon-digit occurrence (so in
particular does not match the line-number pattern), the reported
diagnostic line is 0; the diagnostic is keyed by the parser file path. -/
theorem c2_translator_message_and_default_line (text parserFilePath : List Char) :
    (customParserError text parserFilePath).message
        = text.takeWhile (fun c => c != '\n') ∧
    (customParserError text parserFilePath).filePath = parserFilePath ∧
    (hasColonDigit ((splitLines text).getD 1 ("undefined".toList)) = false →
      (customParserError text parserFilePath).line = 0) := by
  refine ⟨?_, rfl, ?_⟩
  · simp only [customParserError]
    exact splitLines_head text
  · intro h
    simp only [customParserError, lastGtColonDigits_eq_none _ h]

theorem c2_translator_witness :
    (customParserError ("Error: boom\nat dispatch".toList) ("parser.js".toList)).message
        = "Error: boom".toList ∧
    (customParserError ("Error: boom\nat dispatch".toList) ("parser.js".toList)).line = 0 := by
  have h := c2_translator_message_and_default_line
    ("Error: boom\nat dispatch".toList) ("parser.js".toList)
  exact ⟨by rw [h.1]; decide, h.2.2 (by decide)⟩

/-- C9: for every failure text whose second stack line matches the
pattern with parsed number k, the diagnostic line is k - 4 with no
clamping, so for any k at most 4 the reported line is zero or negative
rather than a 1-based source line. -/
theorem c9_reported_line_is_k_minus_four (text parserFilePath ds : List Char)
    (h : lastGtColonDigits ((splitLines text).getD 1 ("undefined".toList)) = some ds) :
    (customParserError text parserFilePath).line = (digitsToNat ds : Int) - 4 ∧
    (digitsToNat ds ≤ 4 → (customParserError text parserFilePath).line ≤ 0) := by
  have hline : (customParserError text parserFilePath).line
      = (digitsToNat ds : Int) - 4 := by
    simp only [customParserError, h]
  refine ⟨hline, fun hk => ?_⟩
  rw [hline]
  omega

theorem c9_reported_line_witness :
    (customParserError ("err\nat <anonymous>:2".toList) ("p.js".toList)).line = -2 := by
  have h := c9_reported_line_is_k_minus_four
    ("err\nat <anonymous>:2".toList) ("p.js".toList) ("2".toList) (by decide)
  rw [h.1]
  decide

/-! ## Custom editor document creation
(src/src/editorprovider.ts, openCustomDocument, lines 20 to 41).
The file extension is computed with path.extname; the Node.js posix
implementation of extname is embedded faithfully below (lib/path.js,
posix.extname), with the -1 index sentinels of the JavaScript rendered
as none. -/

/-- Scan state of the Node.js posix path.extname loop. -/
structure ExtnameState where
  startDot : Option Nat
  startPart : Nat
  endIdx : Option Nat
  matchedSlash : Bool
  preDotState : Int
  deriving DecidableEq

/-- The body of one non-separator iteration of the extname scan at
index i: record the end on the first non-separator, then update the
dot bookkeeping. -/
def extnameStep (s : List Char) (i : Nat) (st : ExtnameState) : ExtnameState :=
  let st1 := if st.endIdx = none then
      { st with matchedSlash := false, endIdx := some (i + 1) }
    else st
  if s.getD i ' ' = '.' then
    if st1.startDot = none then { st1 with startDot := some i }
    else if st1.preDotState ≠ 1 then { st1 with preDotState := 1 }
    else st1
  else if st1.startDot ≠ none then { st1 with preDotState := -1 }
  else st1

/-- The extname scan, processing indices i-1 down to 0 with an early
break at a path separator that follows a non-separator. -/
def extnameScan (s : List Char) : Nat → ExtnameState → ExtnameState
  | 0, st => st
  | i + 1, st =>
    if s.getD i ' ' = '/' then
      if st.matchedSlash = false then { st with startPart := i + 1 }
      else extnameScan s i st
    else extnameScan s i (extnameStep s i st)

/-- Node.js posix path.extname on a character list: the slice from the
last dot of the last portion of the path to its end, or empty when there
is no dot, when the dot leads the basename, or when the trimmed component
is exactly dot-dot. -/
def extname (s : List Char) : List Char :=
  let st := extnameScan s s.length ⟨none, 0, none, true, 0⟩
  match st.startDot, st.endIdx with
  | some sd, some e =>
    if st.preDotState = 0 ∨ (st.preDotState = 1 ∧ sd = e - 1 ∧ sd = st.startPart + 1)
    then []
    else (s.drop sd).take (e - sd)
  | _, _ => []

/-- The fileExt computation of openCustomDocument (editorprovider.ts,
lines 24 to 26): fileExt = path.extname(filePath); if its length is at
least 1, remove the leading dot with slice(1). -/
def openFileExt (filePath : List Char) : List Char :=
  let fileExt := extname filePath
  if 1 ≤ fileExt.length then fileExt.drop 1 else fileExt

/-- A parser as used by the editor provider: source text and path. -/
structure ParserInfo where
  contents : List Char
  filePath : List Char
  deriving DecidableEq

/-- The document constructed by openCustomDocument. -/
structure EditorDocument where
  uri : List Char
  parser : ParserInfo
  deriving DecidableEq

/-- openCustomDocument (editorprovider.ts, lines 20 to 41): the whole
body sits in a try/catch whose catch returns undefined; the fsPath of the
uri is the file path; ParserSelect.selectParserFile (outside the given
sources) is an explicit parameter whose outcome is either a thrown
exception, no parser, or a parser. -/
def openCustomDocument
    (selectParserFile : List Char → List Char → Except Unit (Option ParserInfo))
    (uri : List Char) : Option EditorDocument :=
  let filePath := uri
  let fileExt := openFileExt filePath
  match selectParserFile fileExt filePath with
  | .error _ => none
  | .ok none => none
  | .ok (some parser) => some { uri := uri, parser := parser }

/-- Invariant of the extname scan at loop index i (indices at or above i
already processed): any recorded end is beyond i and within the string;
any recorded dot is a dot at or beyond i with a recorded end beyond it
and no dot strictly between; while no dot is recorded, no processed
index below the recorded end holds a dot. -/
def ExtScanInv (s : List Char) (i : Nat) (st : ExtnameState) : Prop :=
  i ≤ s.length ∧
  (∀ e, st.endIdx = some e → i < e ∧ e ≤ s.length) ∧
  (∀ sd, st.startDot = some sd →
    i ≤ sd ∧ s.getD sd ' ' = '.' ∧
    ∃ e, st.endIdx = some e ∧ sd < e ∧
      ∀ j, sd < j → j < e → s.getD j ' ' ≠ '.') ∧
  (st.startDot = none →
    ∀ e, st.endIdx = some e → ∀ j, i ≤ j → j < e → s.getD j ' ' ≠ '.')

/-- What the final scan state guarantees: a recorded dot is a dot, lies
before the recorded end, and no dot sits strictly between them. -/
def ExtScanPost (s : List Char) (st : ExtnameState) : Prop :=
  ∀ sd, st.startDot = some sd →
    s.getD sd ' ' = '.' ∧
    ∃ e, st.endIdx = some e ∧ sd < e ∧ e ≤ s.length ∧
      ∀ j, sd < j → j < e → s.getD j ' ' ≠ '.'

theorem extnameStep_startDot (s : List Char) (i : Nat) (st : ExtnameState) :
    (extnameStep s i st).startDot
      = if s.getD i ' ' = '.' ∧ st.startDot = none then some i else st.startDot := by
  rcases st with ⟨sdot, spart, eidx, ms, pds⟩
  rcases eidx with _ | e <;> rcases sdot with _ | sd <;>
    by_cases h2 : s.getD i ' ' = '.' <;>
      simp_all [extnameStep]

theorem extnameStep_endIdx (s : List Char) (i : Nat) (st : ExtnameState) :
    (extnameStep s i st).endIdx
      = if st.endIdx = none then some (i + 1) else st.endIdx := by
  rcases st with ⟨sdot, spart, eidx, ms, pds⟩
  rcases eidx with _ | e <;> rcases sdot with _ | sd <;>
    by_cases h2 : s.getD i ' ' = '.' <;>
      simp_all [extnameStep]

theorem extnameStep_inv (s : List Char) (i : Nat) (st : ExtnameState)
    (hinv : ExtScanInv s (i + 1) st) (_hns : s.getD i ' ' ≠ '/') :
    ExtScanInv s i (extnameStep s i st) := by
  obtain ⟨hi, hend, hdot, hnone⟩ := hinv
  have hsd := extnameStep_startDot s i st
  have hei := extnameStep_endIdx s i st
  refine ⟨by omega, ?_, ?_, ?_⟩
  · intro e he
    rw [hei] at he
    by_cases h1 : st.endIdx = none
    · rw [if_pos h1] at he
      injection he with he2
      omega
    · rw [if_neg h1] at he
      have h2 := hend e he
      exact ⟨by omega, h2.2⟩
  · intro sd hsdEq
    rw [hsd] at hsdEq
    by_cases hcase : s.getD i ' ' = '.' ∧ st.startDot = none
    · rw [if_pos hcase] at hsdEq
      injection hsdEq with h2
      subst h2
      refine ⟨le_refl i, hcase.1, ?_⟩
      by_cases h1 : st.endIdx = none
      · refine ⟨i + 1, ?_, by omega, fun j hj1 hj2 => by omega⟩
        rw [hei, if_pos h1]
      · obtain ⟨e, he⟩ : ∃ e, st.endIdx = some e := by
          cases h : st.endIdx with
          | none => exact absurd h h1
          | some e => exact ⟨e, rfl⟩
        refine ⟨e, ?_, ?_, ?_⟩
        · rw [hei, if_neg h1]
          exact he
        · have h2 := (hend e he).1
          omega
        · intro j hj1 hj2
          exact hnone hcase.2 e he j (by omega) hj2
    · rw [if_neg hcase] at hsdEq
      obtain ⟨hle, hdc, e, he, hlt, hnd⟩ := hdot sd hsdEq
      refine ⟨by omega, hdc, e, ?_, hlt, hnd⟩
      rw [hei, if_neg (by rw [he]; simp)]
      exact he
  · intro hn e he j hij hje
    rw [hsd] at hn
    rw [hei] at he
    by_cases hcase : s.getD i ' ' = '.' ∧ st.startDot = none
    · rw [if_pos hcase] at hn
      exact absurd hn (by simp)
    · rw [if_neg hcase] at hn
      have hcne : s.getD i ' ' ≠ '.' := fun hdc => hcase ⟨hdc, hn⟩
      by_cases h1 : st.endIdx = none
      · rw [if_pos h1] at he
        injection he with he2
        have hji : j = i := by omega
        rw [hji]
        exact hcne
      · rw [if_neg h1] at he
        rcases Nat.eq_or_lt_of_le hij with heq | hlt2
        · rw [← heq]
          exact hcne
        · exact hnone hn e he j (by omega) hje

theorem extnameScan_post (s : List Char) : ∀ (i : Nat) (st : ExtnameState),
    ExtScanInv s i st → ExtScanPost s (extnameScan s i st) := by
  intro i
  induction i with
  | zero =>
    intro st hinv sd hsdEq
    obtain ⟨hi, hend, hdot, hnone⟩ := hinv
    obtain ⟨_, hdc, e, he, hlt, hnd⟩ := hdot sd hsdEq
    exact ⟨hdc, e, he, hlt, (hend e he).2, hnd⟩
  | succ i ih =>
    intro st hinv
    obtain ⟨hi, hend, hdot, hnone⟩ := hinv
    rw [show extnameScan s (i + 1) st =
      (if s.getD i ' ' = '/' then
        if st.matchedSlash = false then { st with startPart := i + 1 }
        else extnameScan s i st
      else extnameScan s i (extnameStep s i st)) from rfl]
    by_cases hslash : s.getD i ' ' = '/'
    · rw [if_pos hslash]
      by_cases hms : st.matchedSlash = false
      · rw [if_pos hms]
        intro sd hsdEq
        simp only at hsdEq
        obtain ⟨_, hdc, e, he, hlt, hnd⟩ := hdot sd hsdEq
        exact ⟨hdc, e, he, hlt, (hend e he).2, hnd⟩
      · rw [if_neg hms]
        apply ih
        refine ⟨by omega, fun e he => ⟨by have := (hend e he).1; omega, (hend e he).2⟩,
          fun sd hsdEq => ?_, fun hn e he j hij hje => ?_⟩
        · obtain ⟨hle, rest⟩ := hdot sd hsdEq
          exact ⟨by omega, rest⟩
        · rcases Nat.eq_or_lt_of_le hij with heq | hlt2
          · rw [← heq, hslash]
            decide
          · exact hnone hn e he j (by omega) hje
    · rw [if_neg hslash]
      exact ih _ (extnameStep_inv s i st ⟨hi, hend, hdot, hnone⟩ hslash)

theorem extname_shape (s : List Char) :
    extname s = [] ∨
    ((extname s).head? = some '.' ∧ ∀ x ∈ (extname s).drop 1, x ≠ '.') := by
  have hinv0 : ExtScanInv s s.length ⟨none, 0, none, true, 0⟩ := by
    refine ⟨le_refl _, ?_, ?_, ?_⟩
    · intro e he
      simp at he
    · intro sd hsd
      simp at hsd
    · intro _ e he
      simp at he
  have hpost := extnameScan_post s s.length ⟨none, 0, none, true, 0⟩ hinv0
  simp only [extname]
  set st := extnameScan s s.length ⟨none, 0, none, true, 0⟩ with hst
  cases hsd : st.startDot with
  | none =>
    cases he : st.endIdx <;> simp [hsd, he]
  | some sd =>
    cases he : st.endIdx with
    | none =>
      obtain ⟨_, e, he2, _⟩ := hpost sd hsd
      rw [he] at he2
      cases he2
    | some e =>
      obtain ⟨hdc, e2, he2, hlt, hle, hnd⟩ := hpost sd hsd
      rw [he] at he2
      injection he2 with he2e
      subst he2e
      simp only [hsd, he]
      by_cases hguard : st.preDotState = 0 ∨
          (st.preDotState = 1 ∧ sd = e - 1 ∧ sd = st.startPart + 1)
      · rw [if_pos hguard]
        left
        rfl
      · rw [if_neg hguard]
        right
        constructor
        · rw [List.head?_eq_getElem?,
            List.getElem?_take_of_lt (show 0 < e - sd by omega),
            List.getElem?_drop, Nat.add_zero,
            List.getElem?_eq_getElem (show sd < s.length by omega)]
          have hx : s[sd] = '.' := by
            have h3 := List.getD_eq_getElem?_getD s sd ' '
            rw [List.getElem?_eq_getElem (show sd < s.length by omega)] at h3
            simp only [Option.getD_some] at h3
            rw [h3] at hdc
            exact hdc
          rw [hx]
        · intro x hx
          rw [List.drop_take, List.drop_drop] at hx
          obtain ⟨k, hk, hkx⟩ := List.mem_iff_getElem.mp hx
          have hklt : k < e - sd - 1 := by
            simp only [List.length_take, List.length_drop] at hk
            omega
          rw [List.getElem_take, List.getElem_drop] at hkx
          intro hxd
          apply hnd (sd + 1 + k) (by omega) (by omega)
          have hj : s.getD (sd + 1 + k) ' ' = s[sd + 1 + k] := by
            rw [List.getD_eq_getElem?_getD,
              List.getElem?_eq_getElem (show sd + 1 + k < s.length by omega)]
            simp
          rw [hj, hkx, hxd]

theorem openFileExt_head (filePath : List Char) :
    (openFileExt filePath).head? ≠ some '.' := by
  rcases extname_shape filePath with h0 | ⟨hhead, hnodot⟩
  · simp [openFileExt, h0]
  · have hne : extname filePath ≠ [] := by
      intro h
      rw [h] at hhead
      simp at hhead
    have hlen : 1 ≤ (extname filePath).length := by
      cases hl : extname filePath with
      | nil => exact absurd hl hne
      | cons y t => simp
    simp only [openFileExt, if_pos hlen]
    intro hcon
    cases hl : (extname filePath).drop 1 with
    | nil =>
      rw [hl] at hcon
      simp at hcon
    | cons y t =>
      rw [hl] at hcon
      simp only [List.head?_cons, Option.some.injEq] at hcon
      exact hnodot y (by rw [hl]; exact List.mem_cons_self ..) hcon

/-- C10: the extension string handed to parser selection by
openCustomDocument never starts with a dot: for every path whose extname
is nonempty it is the extension with the leading dot removed, and for a
path with empty extname it is the empty string. -/
theorem c10_fileExt_never_starts_with_dot (filePath : List Char) :
    (openFileExt filePath).head? ≠ some '.' ∧
    (extname filePath = [] → openFileExt filePath = []) ∧
    (extname filePath ≠ [] →
      (extname filePath).head? = some '.' ∧
      openFileExt filePath = (extname filePath).drop 1) := by
  refine ⟨openFileExt_head filePath, fun h => by simp [openFileExt, h], fun h => ?_⟩
  rcases extname_shape filePath with h0 | ⟨hhead, _⟩
  · exact absurd h0 h
  · refine ⟨hhead, ?_⟩
    have hlen : 1 ≤ (extname filePath).length := by
      cases hl : extname filePath with
      | nil => exact absurd hl h
      | cons y t => simp
    simp [openFileExt, hlen]

theorem c10_fileExt_witness :
    (openFileExt ("/tmp/file.bin".toList)).head? ≠ some '.' ∧
    openFileExt ("/tmp/file.bin".toList) = "bin".toList := by
  have h := c10_fileExt_never_starts_with_dot ("/tmp/file.bin".toList)
  refine ⟨h.1, ?_⟩
  have h2 := (h.2.2 (by decide)).2
  rw [h2]
  decide

/-- C8: openCustomDocument is total at the public interface: for every
uri it either returns a document whose uri and parser fields are the
opened file and the selected parser, or returns none, whatever the
selection outcome (including a thrown exception, swallowed by the
try/catch); no exception propagates to the caller. -/
theorem c8_openCustomDocument_total
    (selectParserFile : List Char → List Char → Except Unit (Option ParserInfo))
    (uri : List Char) :
    openCustomDocument selectParserFile uri = none ∨
    ∃ p, selectParserFile (openFileExt uri) uri = Except.ok (some p) ∧
      openCustomDocument selectParserFile uri
        = some { uri := uri, parser := p } := by
  cases h : selectParserFile (openFileExt uri) uri with
  | error e =>
    left
    simp [openCustomDocument, h]
  | ok o =>
    cases o with
    | none =>
      left
      simp [openCustomDocument, h]
    | some p =>
      right
      exact ⟨p, rfl, by simp [openCustomDocument, h]⟩

/-! ## The open command, rename handling and folder validation
(part_000: the command at lines 104 to 123, the rename handler at lines
138 to 147, getParserPaths at lines 176 to 197). -/

/-- The needle occurs contiguously inside the hay. -/
def containsSeq (needle hay : List Char) : Prop :=
  ∃ u v, hay = u ++ needle ++ v

theorem containsSeq_append_right (x a b : List Char) (h : containsSeq x a) :
    containsSeq x (a ++ b) := by
  obtain ⟨u, v, rfl⟩ := h
  exact ⟨u, v ++ b, by simp⟩

/-- Node.js posix path.basename (no suffix argument): trailing
separators are ignored; the result is the portion after the last
remaining separator; a path of separators only keeps one separator. -/
def basename (p : List Char) : List Char :=
  let rtrimmed := p.reverse.dropWhile (fun c => c == '/')
  if rtrimmed = [] ∧ p ≠ [] then "/".toList
  else (rtrimmed.takeWhile (fun c => c != '/')).reverse

/-- The outcome of the binary-file-viewer.open command handler. -/
inductive OpenCommandAction where
  | showError (msg : List Char)
  | openWith (uri : List Char)
  deriving DecidableEq

/-- The open command handler (part_000, lines 104 to 123): when parser
selection found nothing, build an error message from the basename of the
file and the tested parser paths and show it without opening the viewer;
otherwise execute vscode.openWith on the viewer.  The selection result
and the ParserSelect.getTestedParserFilePaths() list (ParserSelect is not
among the given sources) are explicit parameters; the quote character is
written as an escape. -/
def openCommand (parser : Option ParserInfo)
    (testedParserPaths : List (List Char)) (uri : List Char) : OpenCommandAction :=
  let filePath := uri
  match parser with
  | none =>
    let msg := "Binary-File-Viewer: No parser available for ".toList
      ++ ['\x27'] ++ basename filePath ++ ['\x27'] ++ ".\n".toList
    let msg := if 0 < testedParserPaths.length then
        testedParserPaths.foldl (fun m p => m ++ '\n' :: p)
          (msg ++ "Tried parser(s): ".toList)
      else msg
    .showError msg
  | some _ => .openWith uri

theorem openCommand_foldl_pres (ps : List (List Char)) :
    ∀ (acc x : List Char), containsSeq x acc →
      containsSeq x (ps.foldl (fun m p => m ++ '\n' :: p) acc) := by
  induction ps with
  | nil => intro acc x h; exact h
  | cons q qs ih =>
    intro acc x h
    exact ih _ x (containsSeq_append_right x acc ('\n' :: q) h)

theorem openCommand_foldl_mem (ps : List (List Char)) :
    ∀ (acc p : List Char), p ∈ ps →
      containsSeq p (ps.foldl (fun m q => m ++ '\n' :: q) acc) := by
  induction ps with
  | nil => intro acc p h; cases h
  | cons q qs ih =>
    intro acc p h
    rcases List.mem_cons.mp h with rfl | h2
    · exact openCommand_foldl_pres qs _ p ⟨acc ++ ['\n'], [], by simp⟩
    · exact ih _ p h2

/-- C4: when parser selection for a file yields no parser, the open
command does not open the viewer and shows an error message that
contains the basename of the file and every tested parser path. -/
theorem c4_open_without_parser_shows_error (parser : Option ParserInfo)
    (testedParserPaths : List (List Char)) (uri : List Char)
    (hsel : parser = none) :
    ∃ msg, openCommand parser testedParserPaths uri = .showError msg ∧
      containsSeq (basename uri) msg ∧
      ∀ p ∈ testedParserPaths, containsSeq p msg := by
  subst hsel
  simp only [openCommand]
  by_cases hlen : 0 < testedParserPaths.length
  · rw [if_pos hlen]
    refine ⟨_, rfl, ?_, ?_⟩
    · apply openCommand_foldl_pres
      apply containsSeq_append_right
      exact ⟨"Binary-File-Viewer: No parser available for ".toList ++ ['\x27'],
        ['\x27'] ++ ".\n".toList, by simp⟩
    · intro p hp
      exact openCommand_foldl_mem testedParserPaths _ p hp
  · rw [if_neg hlen]
    refine ⟨_, rfl, ?_, ?_⟩
    · exact ⟨"Binary-File-Viewer: No parser available for ".toList ++ ['\x27'],
        ['\x27'] ++ ".\n".toList, by simp⟩
    · intro p hp
      have : testedParserPaths = [] := by
        cases testedParserPaths with
        | nil => rfl
        | cons a as => simp at hlen
      subst this
      cases hp

theorem c4_open_without_parser_witness :
    ∃ msg, openCommand none ["/p/a.js".toList, "/p/b.js".toList] ("/data/test.bin".toList)
        = .showError msg ∧
      containsSeq (basename ("/data/test.bin".toList)) msg ∧
      ∀ p ∈ ["/p/a.js".toList, "/p/b.js".toList], containsSeq p msg :=
  c4_open_without_parser_shows_error none ["/p/a.js".toList, "/p/b.js".toList]
    ("/data/test.bin".toList) rfl

/-- A file rename event entry: old and new uri. -/
structure RenamedFile where
  oldUri : List Char
  newUri : List Char
  deriving DecidableEq

/-- A recorded call into ParserSelect. -/
inductive ParserSelectCall where
  | updateIfParserFile (paths : List (List Char))
  deriving DecidableEq

/-- The onDidRenameFiles handler (part_000, lines 138 to 147): for each
renamed file push the new uri then the old uri into one merged list, then
call ParserSelect.updateIfParserFile on it. -/
def onDidRenameFiles (files : List RenamedFile) : ParserSelectCall :=
  let merged := files.foldl (fun merged f => merged ++ [f.newUri, f.oldUri]) []
  .updateIfParserFile merged

theorem renameFoldl_pres (files : List RenamedFile) :
    ∀ (acc : List (List Char)) (x : List Char), x ∈ acc →
      x ∈ files.foldl (fun m g => m ++ [g.newUri, g.oldUri]) acc := by
  induction files with
  | nil => intro acc x h; exact h
  | cons g gs ih =>
    intro acc x h
    exact ih _ x (List.mem_append_left _ h)

theorem renameFoldl_mem (files : List RenamedFile) :
    ∀ (acc : List (List Char)) (f : RenamedFile), f ∈ files →
      f.newUri ∈ files.foldl (fun m g => m ++ [g.newUri, g.oldUri]) acc ∧
      f.oldUri ∈ files.foldl (fun m g => m ++ [g.newUri, g.oldUri]) acc := by
  induction files with
  | nil => intro acc f h; cases h
  | cons g gs ih =>
    intro acc f h
    rcases List.mem_cons.mp h with rfl | h2
    · refine ⟨?_, ?_⟩ <;> rw [List.foldl_cons] <;> apply renameFoldl_pres <;> simp
    · exact ih _ f h2

/-- C6: for every file rename event, updateIfParserFile is invoked with
a path list containing both the old uri and the new uri of every renamed
file of the event. -/
theorem c6_rename_updates_old_and_new (files : List RenamedFile)
    (f : RenamedFile) (h : f ∈ files) :
    ∃ paths, onDidRenameFiles files = .updateIfParserFile paths ∧
      f.oldUri ∈ paths ∧ f.newUri ∈ paths := by
  refine ⟨_, rfl, ?_, ?_⟩
  · exact (renameFoldl_mem files [] f h).2
  · exact (renameFoldl_mem files [] f h).1

theorem c6_rename_witness :
    ∃ paths, onDidRenameFiles [⟨"/w/old.bin".toList, "/w/new.bin".toList⟩]
        = .updateIfParserFile paths ∧
      "/w/old.bin".toList ∈ paths ∧ "/w/new.bin".toList ∈ paths :=
  c6_rename_updates_old_and_new [⟨"/w/old.bin".toList, "/w/new.bin".toList⟩]
    ⟨"/w/old.bin".toList, "/w/new.bin".toList⟩ (List.mem_cons_self ..)

/-- Status of a configured path on disk, as seen through fs.existsSync
(not missing) and fs.lstatSync(path).isDirectory() (directory). -/
inductive FsEntry where
  | missing
  | directory
  | file
  deriving DecidableEq

/-- The error message getParserPaths shows for an excluded folder: one
message for a non-existent path, another for a non-directory path; the
quote character is written as an escape. -/
def parserFolderError (fs : List Char → FsEntry) (folder : List Char) : List Char :=
  if fs folder = FsEntry.missing then
    "Settings: The path ".toList ++ ['\x27'] ++ folder ++ ['\x27']
      ++ " does not exist.".toList
  else
    "Settings: The path ".toList ++ ['\x27'] ++ folder ++ ['\x27']
      ++ " is not a directory.".toList

/-- getParserPaths (part_000, lines 176 to 197), with the file system
and the parserFolders setting explicit: walk the configured folders in
order; a non-existent path yields an error message and is skipped; an
existing non-directory path yields an error message and is skipped; a
directory is appended to correctFolders.  Returns (correctFolders,
error messages shown), both in order. -/
def getParserPaths (fs : List Char → FsEntry)
    (parserFolders : List (List Char)) : List (List Char) × List (List Char) :=
  parserFolders.foldl (fun acc folder =>
    if fs folder = FsEntry.missing then
      (acc.1, acc.2 ++ [("Settings: The path ".toList ++ ['\x27'] ++ folder
        ++ ['\x27'] ++ " does not exist.".toList)])
    else if ¬ fs folder = FsEntry.directory then
      (acc.1, acc.2 ++ [("Settings: The path ".toList ++ ['\x27'] ++ folder
        ++ ['\x27'] ++ " is not a directory.".toList)])
    else
      (acc.1 ++ [folder], acc.2)) ([], [])

theorem getParserPaths_go (fs : List Char → FsEntry)
    (folders : List (List Char)) : ∀ acc1 acc2 : List (List Char),
    folders.foldl (fun acc folder =>
      if fs folder = FsEntry.missing then
        (acc.1, acc.2 ++ [("Settings: The path ".toList ++ ['\x27'] ++ folder
          ++ ['\x27'] ++ " does not exist.".toList)])
      else if ¬ fs folder = FsEntry.directory then
        (acc.1, acc.2 ++ [("Settings: The path ".toList ++ ['\x27'] ++ folder
          ++ ['\x27'] ++ " is not a directory.".toList)])
      else
        (acc.1 ++ [folder], acc.2)) (acc1, acc2)
    = (acc1 ++ folders.filter (fun f => fs f == FsEntry.directory),
       acc2 ++ (folders.filter (fun f => !(fs f == FsEntry.directory))).map
         (parserFolderError fs)) := by
  induction folders with
  | nil => intro acc1 acc2; simp
  | cons g gs ih =>
    intro acc1 acc2
    rw [List.foldl_cons]
    by_cases h1 : fs g = FsEntry.missing
    · rw [if_pos h1]
      have h2 : (fs g == FsEntry.directory) = false := by
        rw [h1]
        rfl
      rw [ih]
      simp [List.filter_cons, h2, parserFolderError, h1]
    · rw [if_neg h1]
      by_cases h3 : fs g = FsEntry.directory
      · rw [if_neg (by rw [h3]; simp)]
        have h2 : (fs g == FsEntry.directory) = true := by
          rw [h3]
          rfl
        rw [ih]
        simp [List.filter_cons, h2]
      · rw [if_pos h3]
        have h2 : (fs g == FsEntry.directory) = false := by
          cases hg : fs g <;> simp_all
        rw [ih]
        simp [List.filter_cons, h2, parserFolderError, h1]

/-- C7: getParserPaths returns exactly the configured parserFolders
entries that exist and are directories, in configuration order, and
shows exactly one error message per excluded entry (non-existent or not
a directory), each naming that path. -/
theorem c7_getParserPaths_filters_and_warns (fs : List Char → FsEntry)
    (parserFolders : List (List Char)) :
    (getParserPaths fs parserFolders).1
      = parserFolders.filter (fun f => fs f == FsEntry.directory) ∧
    (getParserPaths fs parserFolders).2
      = (parserFolders.filter (fun f => !(fs f == FsEntry.directory))).map
          (parserFolderError fs) ∧
    ∀ f : List Char, containsSeq f (parserFolderError fs f) := by
  refine ⟨?_, ?_, ?_⟩
  · rw [getParserPaths, getParserPaths_go]
    simp
  · rw [getParserPaths, getParserPaths_go]
    simp
  · intro f
    rw [parserFolderError]
    by_cases h1 : fs f = FsEntry.missing
    · rw [if_pos h1]
      exact ⟨"Settings: The path ".toList ++ ['\x27'], ['\x27']
        ++ " does not exist.".toList, by simp⟩
    · rw [if_neg h1]
      exact ⟨"Settings: The path ".toList ++ ['\x27'], ['\x27']
        ++ " is not a directory.".toList, by simp⟩
